import Mathlib

/-!
Verification of the goreach coverage reconciliation and merge engine.

This file gives a shallow embedding of the core of the goreach repository:
the report data model (internal/report), the cross-build merge engine
(internal/merge), the function-coverage matcher and report assembler
(internal/analysis), the build-group partitioner (internal/covparse) and
the AST function extractor (internal/astmap).  Go `int` fields are
modelled as `Int`, Go `float64` coverage percentages as `ℚ` (the merge
engine only ever compares and divides them, so the ordered-field
behaviour is what matters), `time.Time` values as integers ordered by
`<`, and Go slices as lists.  Go maps keyed by strings/structs are
modelled as association lists built in the source's iteration order
(the Go code only iterates maps where the claims do not depend on map
iteration order, or sorts the keys first).
-/

namespace Goreach

/-! ## Data model (internal/report/report.go) -/

/-- UnreachedBlock describes a contiguous block of unreached code. -/
structure UnreachedBlock where
  startLine : Int
  startCol : Int
  endLine : Int
  endCol : Int
  numStatements : Int
deriving DecidableEq, Repr

/-- CoverageStats holds aggregate coverage statistics. -/
structure CoverageStats where
  totalStatements : Int
  coveredStatements : Int
  coveragePercent : ℚ
deriving DecidableEq, Repr

/-- FuncReport holds coverage data for a single function.  The schema in
the source has exactly these fields; in particular there is no
latest-unreached-blocks field. -/
structure FuncReport where
  name : String
  line : Int
  totalStatements : Int
  coveredStatements : Int
  coveragePercent : ℚ
  unreachedBlocks : List UnreachedBlock
deriving DecidableEq, Repr

/-- FileReport holds coverage data for a single source file. -/
structure FileReport where
  fileName : String
  total : CoverageStats
  functions : List FuncReport
deriving DecidableEq, Repr

/-- PackageReport holds coverage data for a single package. -/
structure PackageReport where
  importPath : String
  total : CoverageStats
  files : List FileReport
deriving DecidableEq, Repr

/-- Report is the top-level output of goreach analyze.  GeneratedAt is a
time stamp, modelled as an integer ordered by `<`. -/
structure Report where
  version : Int
  generatedAt : Int
  mode : String
  total : CoverageStats
  packages : List PackageReport
deriving DecidableEq, Repr

/-- ComputePercent calculates coverage percentage, returning 0 for zero
total (report.ComputePercent). -/
def ComputePercent (covered total : Int) : ℚ :=
  if total = 0 then 0 else (covered : ℚ) / (total : ℚ) * 100

/-! ## Merge engine (internal/merge/merge.go) -/

/-- funcKey uniquely identifies a function across builds. -/
structure FuncKey where
  fileName : String
  funcName : String
deriving DecidableEq, Repr

/-- funcEntry tracks the best coverage seen for a function across all
reports. -/
structure FuncEntry where
  coveragePercent : ℚ
  coveredStatements : Int
  totalStatements : Int
  unreachedBlocks : List UnreachedBlock
  line : Int
deriving DecidableEq, Repr

/-- The funcEntry recorded for a function report in the merge lookup. -/
def entryOf (fn : FuncReport) : FuncEntry :=
  { coveragePercent := fn.coveragePercent
    coveredStatements := fn.coveredStatements
    totalStatements := fn.totalStatements
    unreachedBlocks := fn.unreachedBlocks
    line := fn.line }

/-- The stream of (key, entry) pairs contributed by one report, in the
source's nested-loop iteration order (packages, then files, then
functions). -/
def reportStream (r : Report) : List (FuncKey × FuncEntry) :=
  r.packages.flatMap fun p =>
    p.files.flatMap fun f =>
      f.functions.map fun fn => (⟨f.fileName, fn.name⟩, entryOf fn)

/-- The full (key, entry) stream over all input reports, in report
iteration order. -/
def mergeStream (rs : List Report) : List (FuncKey × FuncEntry) :=
  rs.flatMap reportStream

/-- One step of the lookup-map update in Merge: a new entry replaces the
existing one only when its coverage percent is strictly greater. -/
def updateLookup (m : FuncKey → Option FuncEntry) (k : FuncKey) (e : FuncEntry) :
    FuncKey → Option FuncEntry :=
  fun k2 =>
    if k2 = k then
      match m k with
      | none => some e
      | some ex => if ex.coveragePercent < e.coveragePercent then some e else some ex
    else m k2

/-- Folding the lookup updates over a (key, entry) stream. -/
def foldLookup : List (FuncKey × FuncEntry) → (FuncKey → Option FuncEntry) →
    (FuncKey → Option FuncEntry)
  | [], m => m
  | (k, e) :: t, m => foldLookup t (updateLookup m k e)

/-- The best-coverage lookup map built by Merge over all input reports. -/
def buildLookup (rs : List Report) : FuncKey → Option FuncEntry :=
  foldLookup (mergeStream rs) (fun _ => none)

/-- Base selection in Merge: the first report whose generatedAt is
strictly after every earlier candidate wins (`r.GeneratedAt.After(base.GeneratedAt)`). -/
def baseOf (first : Report) (rest : List Report) : Report :=
  rest.foldl (fun b r => if b.generatedAt < r.generatedAt then r else b) first

/-- The merged function record built from a winning lookup entry. -/
def mkFuncReport (name : String) (e : FuncEntry) : FuncReport :=
  { name := name
    line := e.line
    totalStatements := e.totalStatements
    coveredStatements := e.coveredStatements
    coveragePercent := e.coveragePercent
    unreachedBlocks := e.unreachedBlocks }

/-- The structural phase of Merge: copy the base report's tree shape and
substitute each function's best lookup entry (aggregate totals are left
zeroed; recomputeStats fills them in afterwards). -/
def applyLookup (lk : FuncKey → Option FuncEntry) (base : Report) (now : Int) : Report :=
  { version := base.version
    generatedAt := now
    mode := "merged"
    total := ⟨0, 0, 0⟩
    packages := base.packages.map fun p =>
      { importPath := p.importPath
        total := ⟨0, 0, 0⟩
        files := p.files.map fun f =>
          { fileName := f.fileName
            total := ⟨0, 0, 0⟩
            functions := f.functions.map fun fn =>
              match lk ⟨f.fileName, fn.name⟩ with
              | some best => mkFuncReport fn.name best
              | none => fn } } }

/-- recomputeStats for one file: the file total is the sum of its
functions' statement counts, with the percent recomputed from the sums. -/
def recomputeFile (f : FileReport) : FileReport :=
  let t := (f.functions.map (·.totalStatements)).sum
  let c := (f.functions.map (·.coveredStatements)).sum
  { fileName := f.fileName
    total := ⟨t, c, ComputePercent c t⟩
    functions := f.functions }

/-- recomputeStats for one package. -/
def recomputePackage (p : PackageReport) : PackageReport :=
  let files := p.files.map recomputeFile
  let t := (files.map (·.total.totalStatements)).sum
  let c := (files.map (·.total.coveredStatements)).sum
  { importPath := p.importPath
    total := ⟨t, c, ComputePercent c t⟩
    files := files }

/-- recomputeStats recalculates aggregate statistics bottom-up:
function → file → package → report total (merge.recomputeStats). -/
def recomputeStats (r : Report) : Report :=
  let pkgs := r.packages.map recomputePackage
  let t := (pkgs.map (·.total.totalStatements)).sum
  let c := (pkgs.map (·.total.coveredStatements)).sum
  { version := r.version
    generatedAt := r.generatedAt
    mode := r.mode
    total := ⟨t, c, ComputePercent c t⟩
    packages := pkgs }

/-- Per-function copy made by merge.deepCopy: blocks are copied only when
the slice is non-empty (a nil slice stays nil, which is the same list
value here). -/
def deepCopyFunc (fn : FuncReport) : FuncReport :=
  { name := fn.name
    line := fn.line
    totalStatements := fn.totalStatements
    coveredStatements := fn.coveredStatements
    coveragePercent := fn.coveragePercent
    unreachedBlocks :=
      if fn.unreachedBlocks.length > 0 then fn.unreachedBlocks.map (fun b => b) else [] }

/-- merge.deepCopy: a field-by-field copy of the whole report, including
the (possibly stale) aggregate totals. -/
def deepCopy (src : Report) : Report :=
  { version := src.version
    generatedAt := src.generatedAt
    mode := src.mode
    total := src.total
    packages := src.packages.map fun p =>
      { importPath := p.importPath
        total := p.total
        files := p.files.map fun f =>
          { fileName := f.fileName
            total := f.total
            functions := f.functions.map deepCopyFunc } } }

/-- merge.Merge.  `now` stands for time.Now().UTC(). -/
def Merge (now : Int) (reports : List Report) : Except String Report :=
  match reports with
  | [] => .error "merge requires at least 1 report, got 0"
  | [r] => .ok { deepCopy r with generatedAt := now, mode := "merged" }
  | first :: rest =>
      .ok (recomputeStats (applyLookup (buildLookup (first :: rest)) (baseOf first rest) now))

/-! ## Spec-side definitions for the merge engine (from the spec's words,
to be compared with the code) -/

/-- All entries recorded for a key across all reports, in
report-then-file-then-function iteration order. -/
def entriesFor (rs : List Report) (k : FuncKey) : List FuncEntry :=
  ((mergeStream rs).filter fun kv => kv.1 = k).map (·.2)

/-- Spec §4.4 item 2: retain the entry with the strictly greatest
coveragePercent, ties keeping whichever was encountered first: the first
entry whose percent is at least every listed percent. -/
def firstMax (l : List FuncEntry) : Option FuncEntry :=
  l.find? fun e => l.all fun e2 => decide (e2.coveragePercent ≤ e.coveragePercent)

/-- Spec-side winner for one base function: the first-encountered
best-coverage entry for its (fileName, name) key, or the function itself
when the key never occurs. -/
def specWinner (rs : List Report) (fileName : String) (fn : FuncReport) : FuncReport :=
  match firstMax (entriesFor rs ⟨fileName, fn.name⟩) with
  | some e => mkFuncReport fn.name e
  | none => fn

/-- Spec-side description of the multi-report merge: the base report's
tree shape with every function replaced by its first-encountered
best-coverage entry, and all aggregates recomputed bottom-up. -/
def mergedSpec (rs : List Report) (b : Report) (now : Int) : Report :=
  recomputeStats
    { version := b.version
      generatedAt := now
      mode := "merged"
      total := ⟨0, 0, 0⟩
      packages := b.packages.map fun p =>
        { importPath := p.importPath
          total := ⟨0, 0, 0⟩
          files := p.files.map fun f =>
            { fileName := f.fileName
              total := ⟨0, 0, 0⟩
              functions := f.functions.map (specWinner rs f.fileName) } } }

/-- The aggregate invariant of spec §8: every level's statement counts are
the sums of its children's, and every percent is recomputed from those
sums. -/
def aggInvariant (r : Report) : Prop :=
  r.total.totalStatements = (r.packages.map (·.total.totalStatements)).sum ∧
  r.total.coveredStatements = (r.packages.map (·.total.coveredStatements)).sum ∧
  r.total.coveragePercent = ComputePercent r.total.coveredStatements r.total.totalStatements ∧
  ∀ p ∈ r.packages,
    p.total.totalStatements = (p.files.map (·.total.totalStatements)).sum ∧
    p.total.coveredStatements = (p.files.map (·.total.coveredStatements)).sum ∧
    p.total.coveragePercent = ComputePercent p.total.coveredStatements p.total.totalStatements ∧
    ∀ f ∈ p.files,
      f.total.totalStatements = (f.functions.map (·.totalStatements)).sum ∧
      f.total.coveredStatements = (f.functions.map (·.coveredStatements)).sum ∧
      f.total.coveragePercent = ComputePercent f.total.coveredStatements f.total.totalStatements

/-- The shape of a file report: its name and its functions' names. -/
def fileShape (f : FileReport) : String × List String :=
  (f.fileName, f.functions.map (·.name))

/-- The shape of a package report. -/
def pkgShape (p : PackageReport) : String × List (String × List String) :=
  (p.importPath, p.files.map fileShape)

/-- The tree shape of a report: which packages, files and functions it
contains, in order. -/
def reportShape (r : Report) : List (String × List (String × List String)) :=
  r.packages.map pkgShape

/-- The flattened list of function records of a report. -/
def funcsOf (r : Report) : List FuncReport :=
  r.packages.flatMap fun p => p.files.flatMap (·.functions)

/-- The report held by an Except result, or a zero report on error. -/
def reportOf (x : Except String Report) : Report :=
  match x with
  | .ok m => m
  | .error _ => { version := 0, generatedAt := 0, mode := "", total := ⟨0, 0, 0⟩, packages := [] }

/-! ## Function coverage matcher and report assembler
(internal/analysis/analysis.go) -/

/-- cover.ProfileBlock: a contiguous source range with a statement count
and an execution counter. -/
structure ProfileBlock where
  startLine : Int
  startCol : Int
  endLine : Int
  endCol : Int
  numStmt : Int
  count : Int
deriving DecidableEq, Repr

/-- astmap.FuncExtent: the source position of a function declaration. -/
structure FuncExtent where
  name : String
  startLine : Int
  startCol : Int
  endLine : Int
  endCol : Int
deriving DecidableEq, Repr

/-- analysis.Options. -/
structure Options where
  pkgPrefixes : List String
  threshold : ℚ
  minStatements : Int
deriving DecidableEq, Repr

/-- analysis.blockOverlapsFunc: the block falls within the function's
range unless it starts after the function ends or ends before the
function starts, with ties on both the line and the column counting as
overlap. -/
def blockOverlapsFunc (block : ProfileBlock) (fn : FuncExtent) : Bool :=
  if block.startLine > fn.endLine then false
  else if block.startLine = fn.endLine ∧ block.startCol > fn.endCol then false
  else if block.endLine < fn.startLine then false
  else if block.endLine = fn.startLine ∧ block.endCol < fn.startCol then false
  else true

/-- The UnreachedBlock recorded for a never-executed profile block. -/
def toUnreached (b : ProfileBlock) : UnreachedBlock :=
  { startLine := b.startLine
    startCol := b.startCol
    endLine := b.endLine
    endCol := b.endCol
    numStatements := b.numStmt }

/-- One iteration of the per-function block loop of analysis.analyzeFile:
an overlapping block's statements are added to the total, to the covered
count when executed, and to the unreached list otherwise. -/
def matchBlocksStep (fn : FuncExtent) (acc : Int × Int × List UnreachedBlock)
    (block : ProfileBlock) : Int × Int × List UnreachedBlock :=
  match acc with
  | (totalStmts, coveredStmts, unreached) =>
    if blockOverlapsFunc block fn then
      if block.count > 0 then
        (totalStmts + block.numStmt, coveredStmts + block.numStmt, unreached)
      else
        (totalStmts + block.numStmt, coveredStmts, unreached ++ [toUnreached block])
    else acc

/-- The per-function block loop of analysis.analyzeFile: accumulate the
total and covered statement counts and the unreached blocks over all
overlapping blocks, in source order. -/
def matchBlocks (blocks : List ProfileBlock) (fn : FuncExtent) :
    Int × Int × List UnreachedBlock :=
  blocks.foldl (matchBlocksStep fn) (0, 0, [])

/-- One step of the per-function loop of analysis.analyzeFile: skip
zero-total functions entirely, count filtered-out functions towards the
file totals only, and append visible functions to the output. -/
def analyzeFuncStep (blocks : List ProfileBlock) (opts : Options)
    (acc : List FuncReport × Int × Int) (fn : FuncExtent) :
    List FuncReport × Int × Int :=
  match matchBlocks blocks fn with
  | (totalStmts, coveredStmts, unreached) =>
    if totalStmts = 0 then acc
    else
      let pct := ComputePercent coveredStmts totalStmts
      let unreachedStmts := totalStmts - coveredStmts
      if opts.threshold < pct then
        (acc.1, acc.2.1 + totalStmts, acc.2.2 + coveredStmts)
      else if unreachedStmts < opts.minStatements then
        (acc.1, acc.2.1 + totalStmts, acc.2.2 + coveredStmts)
      else
        (acc.1 ++
          [{ name := fn.name
             line := fn.startLine
             totalStatements := totalStmts
             coveredStatements := coveredStmts
             coveragePercent := pct
             unreachedBlocks := unreached }],
         acc.2.1 + totalStmts, acc.2.2 + coveredStmts)

/-- analysis.analyzeFile: returns none when the file's statement total is
zero (the caller then drops the file); the file name is filled in by the
caller. -/
def analyzeFile (blocks : List ProfileBlock) (funcs : List FuncExtent) (opts : Options) :
    Option FileReport :=
  match funcs.foldl (analyzeFuncStep blocks opts) ([], 0, 0) with
  | (funcReports, fileStmts, fileCovered) =>
    if fileStmts = 0 then none
    else
      some
        { fileName := ""
          total := ⟨fileStmts, fileCovered, ComputePercent fileCovered fileStmts⟩
          functions := funcReports }

/-! Spec-side definitions for the matcher (spec §4.1 / §8). -/

/-- Spec: the sum of numStatements over the blocks that overlap F. -/
def specTotal (blocks : List ProfileBlock) (fn : FuncExtent) : Int :=
  ((blocks.filter fun b => blockOverlapsFunc b fn).map (·.numStmt)).sum

/-- Spec: the same sum restricted to blocks with executionCount > 0. -/
def specCovered (blocks : List ProfileBlock) (fn : FuncExtent) : Int :=
  ((blocks.filter fun b => blockOverlapsFunc b fn && decide (0 < b.count)).map (·.numStmt)).sum

/-- Spec: the overlapping blocks with executionCount == 0, in source
order. -/
def specUnreached (blocks : List ProfileBlock) (fn : FuncExtent) : List UnreachedBlock :=
  (blocks.filter fun b => blockOverlapsFunc b fn && decide (b.count = 0)).map toUnreached

/-- Spec: a function counts towards the file aggregate exactly when its
overlapping-block statement total is nonzero. -/
def countedFn (blocks : List ProfileBlock) (fn : FuncExtent) : Bool :=
  decide (specTotal blocks fn ≠ 0)

/-- Spec: a function is visible exactly when its total is nonzero, its
coverage percent is at most the threshold, and its unreached statement
count is at least minStatements. -/
def visibleFn (blocks : List ProfileBlock) (opts : Options) (fn : FuncExtent) : Bool :=
  decide (specTotal blocks fn ≠ 0 ∧
    ComputePercent (specCovered blocks fn) (specTotal blocks fn) ≤ opts.threshold ∧
    opts.minStatements ≤ specTotal blocks fn - specCovered blocks fn)

/-- Spec: the function record assembled for a matched function. -/
def specFuncReport (blocks : List ProfileBlock) (fn : FuncExtent) : FuncReport :=
  { name := fn.name
    line := fn.startLine
    totalStatements := specTotal blocks fn
    coveredStatements := specCovered blocks fn
    coveragePercent := ComputePercent (specCovered blocks fn) (specTotal blocks fn)
    unreachedBlocks := specUnreached blocks fn }

/-- Spec-side description of analyzeFile: visible functions in order, and
file totals summed over all nonzero-total functions (dropped or not). -/
def analyzeFileSpec (blocks : List ProfileBlock) (funcs : List FuncExtent) (opts : Options) :
    Option FileReport :=
  let counted := funcs.filter (countedFn blocks)
  let t := (counted.map (specTotal blocks)).sum
  let c := (counted.map (specCovered blocks)).sum
  if t = 0 then none
  else
    some
      { fileName := ""
        total := ⟨t, c, ComputePercent c t⟩
        functions := (funcs.filter (visibleFn blocks opts)).map (specFuncReport blocks) }

/-! ## The analysis pipeline driver (analysis.Run).  The external
collaborators are passed in as pure functions: `goList` stands for the
`go list -json` subprocess (resolving import paths to disk directories)
and `fileFuncsOf` for astmap.FileFuncs on a source path. -/

/-- cover.Profile: one file's parsed coverage profile. -/
structure Profile where
  fileName : String
  mode : String
  blocks : List ProfileBlock
deriving DecidableEq, Repr

/-- filepath.Dir followed by filepath.ToSlash, for slash-separated
profile file names as used by analysis.packageFromFile. -/
def dirOf (s : String) : String :=
  match (s.splitOn "/").dropLast with
  | [] => "."
  | parts => String.intercalate "/" parts

/-- filepath.Base for slash-separated profile file names. -/
def baseOfPath (s : String) : String :=
  ((s.splitOn "/").getLast? ).getD s

/-- analysis.packageFromFile. -/
def packageFromFile (filename : String) : String := dirOf filename

/-- Append a value to the entry of an association list, keeping key
insertion order (the Go `map[string][]T` append idiom). -/
def assocAppend {α : Type} : List (String × List α) → String → α → List (String × List α)
  | [], k, v => [(k, [v])]
  | (k2, vs) :: t, k, v =>
      if k2 = k then (k2, vs ++ [v]) :: t else (k2, vs) :: assocAppend t k v

/-- Association-list lookup. -/
def assocFind {α : Type} : List (String × α) → String → Option α
  | [], _ => none
  | (k2, v) :: t, k => if k2 = k then some v else assocFind t k

/-- analysis.groupByPackage: group profiles by their package import path. -/
def groupByPackage (profiles : List Profile) : List (String × List Profile) :=
  profiles.foldl (fun m p => assocAppend m (packageFromFile p.fileName) p) []

/-- Go strings.HasPrefix, as a structural prefix test on the character
lists of the two strings. -/
def strHasPrefix (s pre : String) : Bool :=
  pre.data.isPrefixOf s.data

/-- Lexicographic comparison of character lists by code point, the order
sort.Strings uses on ASCII file names. -/
def charListLe : List Char → List Char → Bool
  | [], _ => true
  | _ :: _, [] => false
  | a :: as, b :: bs =>
    if a.toNat < b.toNat then true
    else if b.toNat < a.toNat then false
    else charListLe as bs

/-- String comparison for sort.Strings. -/
def strLe (a b : String) : Bool :=
  charListLe a.data b.data

/-- analysis.matchesPrefixes: true when the import path starts with one of
the given package path filters, or when the filter list is empty. -/
def matchesPrefixes (importPath : String) (pkgPrefixes : List String) : Bool :=
  if pkgPrefixes.isEmpty then true
  else pkgPrefixes.any fun p => strHasPrefix importPath p

/-- analysis.resolvePackages: with no import paths the subprocess is never
run and an empty table is returned; otherwise the `go list` collaborator
decides the outcome. -/
def resolvePackages (goList : List String → Except String (List (String × String)))
    (importPaths : List String) : Except String (List (String × String)) :=
  if importPaths.isEmpty then .ok [] else goList importPaths

/-- One iteration of the profile loop of analysis.analyzePackage: files
whose source cannot be parsed are skipped, as are files with a zero
statement total; surviving file reports are appended with the profile's
file name filled in and their totals accumulated. -/
def analyzePackageStep (diskDir : String)
    (fileFuncsOf : String → Except String (List FuncExtent)) (opts : Options)
    (acc : List FileReport × Int × Int) (prof : Profile) : List FileReport × Int × Int :=
  match fileFuncsOf (diskDir ++ "/" ++ baseOfPath prof.fileName) with
  | .error _ => acc
  | .ok funcs =>
    match analyzeFile prof.blocks funcs opts with
    | none => acc
    | some fr =>
      (acc.1 ++ [{ fr with fileName := prof.fileName }],
       acc.2.1 + fr.total.totalStatements, acc.2.2 + fr.total.coveredStatements)

/-- analysis.analyzePackage: analyze each profile of the package in
file-name order, skipping files whose source cannot be parsed, and drop
the package when no file report survives. -/
def analyzePackage (importPath diskDir : String) (profiles : List Profile)
    (fileFuncsOf : String → Except String (List FuncExtent)) (opts : Options) :
    Option PackageReport :=
  let sorted := List.insertionSort (fun a b : Profile => a.fileName ≤ b.fileName) profiles
  let result := sorted.foldl (analyzePackageStep diskDir fileFuncsOf opts) ([], 0, 0)
  match result with
  | (fileReports, pkgStmts, pkgCovered) =>
    if fileReports.isEmpty then none
    else
      some
        { importPath := importPath
          total := ⟨pkgStmts, pkgCovered, ComputePercent pkgCovered pkgStmts⟩
          files := fileReports }

/-- The mode stamped on an analysis report: the first profile's mode, or
"set" when there are no profiles. -/
def modeOf (profiles : List Profile) : String :=
  match profiles with
  | [] => "set"
  | p :: _ => p.mode

/-- One iteration of the package loop of analysis.Run: packages filtered
out by the prefix allowlist, unresolvable on disk, or analyzed to nothing
are skipped; surviving package reports are appended and their totals
accumulated. -/
def runStep (pkgFiles : List (String × List Profile)) (pkgPaths : List (String × String))
    (opts : Options) (fileFuncsOf : String → Except String (List FuncExtent))
    (acc : List PackageReport × Int × Int) (importPath : String) :
    List PackageReport × Int × Int :=
  match assocFind pkgFiles importPath with
  | none => acc
  | some profs =>
    if matchesPrefixes importPath opts.pkgPrefixes then
      match assocFind pkgPaths importPath with
      | none => acc
      | some diskDir =>
        match analyzePackage importPath diskDir profs fileFuncsOf opts with
        | none => acc
        | some pr =>
          (acc.1 ++ [pr], acc.2.1 + pr.total.totalStatements,
           acc.2.2 + pr.total.coveredStatements)
    else acc

/-- analysis.Run: group profiles by package, resolve disk directories,
analyze each package in sorted import-path order and assemble the report. -/
def Run (profiles : List Profile) (opts : Options)
    (goList : List String → Except String (List (String × String)))
    (fileFuncsOf : String → Except String (List FuncExtent)) : Except String Report :=
  let pkgFiles := groupByPackage profiles
  match resolvePackages goList (pkgFiles.map (·.1)) with
  | .error e => .error e
  | .ok pkgPaths =>
    let importPaths := List.insertionSort (fun a b : String => a ≤ b) (pkgFiles.map (·.1))
    let result := importPaths.foldl (runStep pkgFiles pkgPaths opts fileFuncsOf) ([], 0, 0)
    match result with
    | (pkgReports, totalStmts, totalCovered) =>
      .ok
        { version := 1
          generatedAt := 0
          mode := modeOf profiles
          total := ⟨totalStmts, totalCovered, ComputePercent totalCovered totalStmts⟩
          packages := pkgReports }

/-! ## Build-group partitioner (internal/covparse/covparse.go) -/

/-- A file in a coverage directory: its name and its modification time
(time.Time zero value modelled as 0). -/
structure CovFile where
  name : String
  mtime : Nat
deriving DecidableEq, Repr

/-- A coverage directory found by findCoverageDirs: its path and its
directory entries. -/
structure CovDir where
  path : String
  files : List CovFile
deriving DecidableEq, Repr

/-- covparse.BuildGroup. -/
structure BuildGroup where
  dirs : List CovDir
  newestTimestamp : Nat
deriving DecidableEq, Repr

/-- The covmeta hash suffixes present in a directory
(strings.CutPrefix over the directory entries). -/
def hashSuffixes (d : CovDir) : List String :=
  d.files.filterMap fun f =>
    if strHasPrefix f.name "covmeta." then some (f.name.drop 8) else none

/-- sort.Strings. -/
def sortStrs (l : List String) : List String :=
  List.insertionSort (fun a b : String => strLe a b = true) l

/-- The group key of a directory in groupByMetaHash: the sorted covmeta
hash suffixes joined with commas. -/
def fingerprint (d : CovDir) : String :=
  String.intercalate "," (sortStrs (hashSuffixes d))

/-- covparse.groupByMetaHash: group directories by their covmeta hash
set, as an association list keyed by the joined hash string. -/
def groupByMetaHash (dirs : List CovDir) : List (String × List CovDir) :=
  dirs.foldl (fun gs d => assocAppend gs (fingerprint d) d) []

/-- covparse.newestCounterTime: the most recent modification time of
covcounters files across the given directories, starting from the time
zero value. -/
def newestCounterTime (dirs : List CovDir) : Nat :=
  dirs.foldl
    (fun newest d =>
      d.files.foldl
        (fun newest2 f =>
          if strHasPrefix f.name "covcounters." then
            if newest2 < f.mtime then f.mtime else newest2
          else newest2)
        newest)
    0

/-- covparse.ParseDirRecursiveGrouped, over an already-walked directory
list: group by covmeta hash, compute each group's newest counter time and
sort ascending by it (sort.Slice with Before, modelled by insertion
sort). -/
def ParseDirRecursiveGrouped (dirs : List CovDir) : Except String (List BuildGroup) :=
  if dirs.isEmpty then .error "covparse: no coverage data found"
  else
    .ok (List.insertionSort (fun a b : BuildGroup => a.newestTimestamp ≤ b.newestTimestamp)
      ((groupByMetaHash dirs).map fun kv =>
        { dirs := kv.2, newestTimestamp := newestCounterTime kv.2 }))

/-- The modification times of the covcounters files of a directory list,
in order. -/
def counterTimes (dirs : List CovDir) : List Nat :=
  dirs.flatMap fun d =>
    (d.files.filter fun f => strHasPrefix f.name "covcounters.").map (·.mtime)

/-- The running-maximum step used by newestCounterTime. -/
def natMaxStep (acc t : Nat) : Nat := if acc < t then t else acc

/-! ## AST function extractor (internal/astmap/astmap.go) -/

/-- The receiver type expressions rendered by astmap.exprString. -/
inductive TypeExpr where
  | star : TypeExpr → TypeExpr
  | ident : String → TypeExpr
  | index : TypeExpr → TypeExpr → TypeExpr
  | other : String → TypeExpr
deriving DecidableEq, Repr

/-- astmap.exprString. -/
def exprString : TypeExpr → String
  | .star t => "*" ++ exprString t
  | .ident s => s
  | .index b i => exprString b ++ "[" ++ exprString i ++ "]"
  | .other s => s

/-- The body extent of a function declaration (token positions of the
body's braces). -/
structure BodyExtent where
  startLine : Int
  startCol : Int
  endLine : Int
  endCol : Int
deriving DecidableEq, Repr

/-- A top-level declaration of a parsed Go file.  A function declaration
without a body (an assembly-backed declaration) carries `none`: the
ast.FuncDecl's Body pointer is nil. -/
inductive Decl where
  | funcDecl (name : String) (recv : Option TypeExpr) (body : Option BodyExtent)
  | genDecl
deriving DecidableEq, Repr

/-- A successfully parsed Go source file. -/
structure GoFile where
  decls : List Decl
deriving DecidableEq, Repr

/-- astmap.funcName: the qualified name of a function declaration. -/
def funcNameOf (name : String) (recv : Option TypeExpr) : String :=
  match recv with
  | none => name
  | some t => "(" ++ exprString t ++ ")." ++ name

/-- The outcome of a Go function call that may also crash at runtime. -/
inductive GoResult (α : Type) where
  | ok : α → GoResult α
  | err : String → GoResult α
  | panicked : GoResult α
deriving DecidableEq, Repr

/-- The declaration loop body of astmap.FileFuncs.  `fn.Body.Pos()` is
evaluated unconditionally for every function declaration, so a nil body
is a nil-pointer dereference: the whole traversal panics (`none`). -/
def fileFuncsDecls : List Decl → Option (List FuncExtent)
  | [] => some []
  | .genDecl :: rest => fileFuncsDecls rest
  | .funcDecl name recv body :: rest =>
    match body with
    | none => none
    | some b =>
      match fileFuncsDecls rest with
      | none => none
      | some fs =>
        some
          ({ name := funcNameOf name recv
             startLine := b.startLine
             startCol := b.startCol
             endLine := b.endLine
             endCol := b.endCol } :: fs)

/-- astmap.FileFuncs over the parser's outcome: a parse failure is
returned as an error; on a parsed file the declaration loop runs, and
panics on any bodyless function declaration. -/
def FileFuncs (parsed : Except String GoFile) : GoResult (List FuncExtent) :=
  match parsed with
  | .error e => .err ("astmap: parse: " ++ e)
  | .ok f =>
    match fileFuncsDecls f.decls with
    | none => .panicked
    | some fs => .ok fs

/-! ## Proof-side helper definitions -/

/-- The strict lexicographic order on (line, column) source positions used
by the spec's overlap wording. -/
def posLt (l1 c1 l2 c2 : Int) : Prop := l1 < l2 ∨ (l1 = l2 ∧ c1 < c2)

/-- The entries of a (key, entry) stream recorded under one key, in
stream order. -/
def entriesOf (l : List (FuncKey × FuncEntry)) (k : FuncKey) : List FuncEntry :=
  (l.filter fun kv => kv.1 = k).map (·.2)

/-- One greedy step of the best-coverage selection: a later entry wins
only with a strictly greater percent. -/
def stepBest (acc : Option FuncEntry) (e : FuncEntry) : Option FuncEntry :=
  match acc with
  | none => some e
  | some a => if a.coveragePercent < e.coveragePercent then some e else some a

/-- The greedy best-coverage selection over a list, starting from an
accumulator. -/
def bestFrom (acc : Option FuncEntry) : List FuncEntry → Option FuncEntry
  | [] => acc
  | e :: t => bestFrom (stepBest acc e) t

/-- The greedy maximum with a seed entry. -/
def gmax (a : FuncEntry) : List FuncEntry → FuncEntry
  | [] => a
  | e :: t => gmax (if a.coveragePercent < e.coveragePercent then e else a) t

/-! ## Concrete inputs used by counterexamples and witnesses -/

/-- A single-package, single-file report, mirroring the merge tests'
makeReportWithStatements helper. -/
def mkReport1 (genAt : Int) (fns : List FuncReport) : Report :=
  { version := 1
    generatedAt := genAt
    mode := "set"
    total := ⟨0, 0, 0⟩
    packages :=
      [{ importPath := "example.com/pkg"
         total := ⟨0, 0, 0⟩
         files := [{ fileName := "example.com/pkg/foo.go", total := ⟨0, 0, 0⟩, functions := fns }] }] }

/-- Older report: Foo won coverage from covdata func output, so it has a
percent but zero statement counts and line. -/
def c1old : Report := mkReport1 1 [⟨"Foo", 0, 0, 0, 80, []⟩]

/-- Newest (base) report: Foo with real statement counts from AST
analysis. -/
def c1new : Report := mkReport1 2 [⟨"Foo", 42, 100, 30, 30, []⟩]

/-- Older report for the unreached-block provenance scenario: Foo wins on
coverage but carries no block detail. -/
def c2old : Report := mkReport1 1 [⟨"Foo", 0, 0, 0, 80, []⟩]

/-- Newest (base) report with two unreached blocks on Foo. -/
def c2new : Report :=
  mkReport1 2 [⟨"Foo", 42, 100, 30, 30, [⟨10, 0, 15, 0, 3⟩, ⟨20, 0, 22, 0, 2⟩]⟩]

/-- A report whose stored aggregate totals do not match its (empty)
package tree. -/
def c4stale : Report :=
  { version := 1, generatedAt := 1, mode := "set", total := ⟨7, 3, 50⟩, packages := [] }

/-- Consistent two-report merge witness inputs. -/
def c4a : Report := mkReport1 1 [⟨"Foo", 10, 100, 80, 80, []⟩]

/-- Newest report of the aggregate-invariant witness pair. -/
def c4b : Report := mkReport1 2 [⟨"Foo", 10, 100, 50, 50, []⟩]

/-- Older report of the base-structure witness pair. -/
def c3a : Report := mkReport1 1 [⟨"Foo", 10, 100, 80, 80, []⟩]

/-- Newest report of the base-structure witness pair. -/
def c3b : Report := mkReport1 2 [⟨"Foo", 12, 100, 30, 30, []⟩]

/-- Matcher witness blocks: one covered and one never-executed block. -/
def blocksW : List ProfileBlock := [⟨1, 1, 5, 1, 2, 1⟩, ⟨6, 1, 9, 1, 2, 0⟩]

/-- Matcher witness function extent spanning both blocks. -/
def funcsW : List FuncExtent := [⟨"F", 1, 1, 9, 2⟩]

/-- Matcher witness options: threshold and minStatements both exactly at
the function's boundary values. -/
def optsW : Options := ⟨[], 50, 2⟩

/-- The file report produced for the matcher witness inputs: 4 statements,
2 covered, exactly 50% coverage and exactly 2 unreached statements. -/
def frW : FileReport :=
  { fileName := ""
    total := ⟨4, 2, 50⟩
    functions :=
      [{ name := "F", line := 1, totalStatements := 4, coveredStatements := 2,
         coveragePercent := 50, unreachedBlocks := [⟨6, 1, 9, 1, 2⟩] }] }

/-- Directory whose single covmeta hash suffix contains a comma. -/
def c8d1 : CovDir := ⟨"d1", [⟨"covmeta.a,b", 0⟩]⟩

/-- Directory with two distinct covmeta hash suffixes. -/
def c8d2 : CovDir := ⟨"d2", [⟨"covmeta.a", 0⟩, ⟨"covmeta.b", 0⟩]⟩

/-- Build-group witness directory of the older build. -/
def c8e1 : CovDir := ⟨"e1", [⟨"covmeta.aaa", 0⟩, ⟨"covcounters.aaa", 5⟩]⟩

/-- Build-group witness directory of the newer build. -/
def c8e2 : CovDir := ⟨"e2", [⟨"covmeta.bbb", 0⟩, ⟨"covcounters.bbb", 9⟩]⟩

/-- A profile for the degenerate-input witness. -/
def profW : Profile := ⟨"myapp/pkg/foo.go", "set", []⟩

/-- A single-function report for the degenerate-input witness. -/
def c9r : Report := mkReport1 1 [⟨"Foo", 10, 100, 42, 42, []⟩]

/-- A parsed file containing an assembly-backed (bodyless) function
declaration. -/
def c10file : GoFile := ⟨[Decl.genDecl, Decl.funcDecl "Add" none none]⟩

/-! ## Lemmas: the merge lookup refines the spec's first-encountered
best-coverage selection -/

theorem entriesOf_cons_eq (k : FuncKey) (e : FuncEntry) (t : List (FuncKey × FuncEntry)) :
    entriesOf ((k, e) :: t) k = e :: entriesOf t k := by
  simp [entriesOf]

theorem entriesOf_cons_ne (k0 k : FuncKey) (e : FuncEntry) (t : List (FuncKey × FuncEntry))
    (h : k0 ≠ k) : entriesOf ((k0, e) :: t) k = entriesOf t k := by
  simp [entriesOf, h]

theorem updateLookup_self (m : FuncKey → Option FuncEntry) (k : FuncKey) (e : FuncEntry) :
    updateLookup m k e k = stepBest (m k) e := by
  simp only [updateLookup, if_pos rfl]
  cases m k <;> rfl

theorem updateLookup_other (m : FuncKey → Option FuncEntry) (k0 k : FuncKey) (e : FuncEntry)
    (h : k ≠ k0) : updateLookup m k0 e k = m k := by
  simp [updateLookup, h]

theorem foldLookup_eq (l : List (FuncKey × FuncEntry)) :
    ∀ m k, foldLookup l m k = bestFrom (m k) (entriesOf l k) := by
  induction l with
  | nil => intro m k; simp [foldLookup, entriesOf, bestFrom]
  | cons kv t ih =>
    intro m k
    obtain ⟨k0, e⟩ := kv
    by_cases hk : k0 = k
    · subst hk
      rw [show foldLookup ((k0, e) :: t) m = foldLookup t (updateLookup m k0 e) from rfl, ih,
        entriesOf_cons_eq, updateLookup_self]
      rfl
    · rw [show foldLookup ((k0, e) :: t) m = foldLookup t (updateLookup m k0 e) from rfl, ih,
        entriesOf_cons_ne _ _ _ _ hk, updateLookup_other _ _ _ _ (Ne.symm hk)]

theorem bestFrom_some (t : List FuncEntry) :
    ∀ a, bestFrom (some a) t = some (gmax a t) := by
  induction t with
  | nil => intro a; rfl
  | cons x t2 ih =>
    intro a
    show bestFrom (stepBest (some a) x) t2 = some (gmax a (x :: t2))
    by_cases h : a.coveragePercent < x.coveragePercent
    · simp only [stepBest, if_pos h, gmax, ih]
    · simp only [stepBest, if_neg h, gmax, ih]

theorem firstMax_absorb (a x : FuncEntry) (t2 : List FuncEntry) :
    firstMax ((if a.coveragePercent < x.coveragePercent then x else a) :: t2) =
      firstMax (a :: x :: t2) := by
  by_cases hax : a.coveragePercent < x.coveragePercent
  · rw [if_pos hax]
    unfold firstMax
    have hPQ : (fun (e : FuncEntry) => (a :: x :: t2).all fun e2 =>
          decide (e2.coveragePercent ≤ e.coveragePercent)) =
        (fun (e : FuncEntry) => (x :: t2).all fun e2 =>
          decide (e2.coveragePercent ≤ e.coveragePercent)) := by
      funext e
      simp only [List.all_cons]
      by_cases hxe : x.coveragePercent ≤ e.coveragePercent
      · have hae : a.coveragePercent ≤ e.coveragePercent := le_of_lt (lt_of_lt_of_le hax hxe)
        simp [hxe, hae]
      · simp [hxe]
    rw [hPQ]
    have hPa : ((x :: t2).all fun e2 =>
        decide (e2.coveragePercent ≤ a.coveragePercent)) = false := by
      simp only [List.all_cons, Bool.and_eq_false_iff]
      left
      simp [not_le.mpr hax]
    conv_rhs => rw [List.find?_cons_of_neg _ (by simp only [hPa]; decide)]
  · rw [if_neg hax]
    have hxa : x.coveragePercent ≤ a.coveragePercent := not_lt.mp hax
    unfold firstMax
    have hQM : (fun (e : FuncEntry) => (a :: x :: t2).all fun e2 =>
          decide (e2.coveragePercent ≤ e.coveragePercent)) =
        (fun (e : FuncEntry) => (a :: t2).all fun e2 =>
          decide (e2.coveragePercent ≤ e.coveragePercent)) := by
      funext e
      simp only [List.all_cons]
      by_cases hae : a.coveragePercent ≤ e.coveragePercent
      · have hxe := le_trans hxa hae
        simp [hae, hxe]
      · simp [hae]
    rw [hQM]
    by_cases hMa : ((a :: t2).all fun e2 =>
        decide (e2.coveragePercent ≤ a.coveragePercent)) = true
    · rw [List.find?_cons_of_pos _ (by simp only [hMa]),
        List.find?_cons_of_pos _ (by simp only [hMa])]
    · have hMa2 : ((a :: t2).all fun e2 =>
          decide (e2.coveragePercent ≤ a.coveragePercent)) = false :=
        Bool.eq_false_iff.mpr hMa
      have hMx : ((a :: t2).all fun e2 =>
          decide (e2.coveragePercent ≤ x.coveragePercent)) = false := by
        by_cases haxle : a.coveragePercent ≤ x.coveragePercent
        · have heq : x.coveragePercent = a.coveragePercent := le_antisymm hxa haxle
          simp only [heq]
          exact hMa2
        · simp only [List.all_cons, Bool.and_eq_false_iff]
          left
          simp [haxle]
      rw [List.find?_cons_of_neg _ (by simp only [hMa2]; decide),
        List.find?_cons_of_neg _ (by simp only [hMa2]; decide),
        List.find?_cons_of_neg _ (by simp only [hMx]; decide)]

theorem gmax_firstMax (t : List FuncEntry) : ∀ a, some (gmax a t) = firstMax (a :: t) := by
  induction t with
  | nil =>
    intro a
    have hp : ((a :: ([] : List FuncEntry)).all fun e2 =>
        decide (e2.coveragePercent ≤ a.coveragePercent)) = true := by simp
    simp [gmax, firstMax, List.find?_cons_of_pos _ hp]
  | cons x t2 ih =>
    intro a
    rw [show gmax a (x :: t2) = gmax (if a.coveragePercent < x.coveragePercent then x else a) t2
      from rfl, ih, firstMax_absorb]

theorem bestFrom_none_eq_firstMax (l : List FuncEntry) : bestFrom none l = firstMax l := by
  cases l with
  | nil => rfl
  | cons e t =>
    rw [show bestFrom none (e :: t) = bestFrom (some e) t from rfl, bestFrom_some,
      gmax_firstMax]

theorem buildLookup_eq_firstMax (rs : List Report) (k : FuncKey) :
    buildLookup rs k = firstMax (entriesFor rs k) := by
  rw [buildLookup, foldLookup_eq, bestFrom_none_eq_firstMax]
  rfl

/-! ## Lemmas: base selection, recomputed aggregates, deep copy -/

theorem baseOf_mem (rest : List Report) : ∀ first, baseOf first rest ∈ first :: rest := by
  induction rest with
  | nil => intro first; simp [baseOf]
  | cons r t ih =>
    intro first
    rw [show baseOf first (r :: t) =
      baseOf (if first.generatedAt < r.generatedAt then r else first) t from rfl]
    rcases List.mem_cons.mp (ih (if first.generatedAt < r.generatedAt then r else first)) with h | h
    · by_cases hlt : first.generatedAt < r.generatedAt
      · rw [if_pos hlt] at h ⊢
        simp [h]
      · rw [if_neg hlt] at h ⊢
        simp [h]
    · simp [h]

theorem baseOf_ge (rest : List Report) :
    ∀ first, ∀ r ∈ first :: rest, r.generatedAt ≤ (baseOf first rest).generatedAt := by
  induction rest with
  | nil =>
    intro first r hr
    rcases List.mem_cons.mp hr with h | h
    · subst h; exact le_refl _
    · simp at h
  | cons x t ih =>
    intro first r hr
    rw [show baseOf first (x :: t) =
      baseOf (if first.generatedAt < x.generatedAt then x else first) t from rfl]
    rcases List.mem_cons.mp hr with h | h
    · subst h
      have hfirst : r.generatedAt ≤
          (if r.generatedAt < x.generatedAt then x else r).generatedAt := by
        by_cases hlt : r.generatedAt < x.generatedAt
        · rw [if_pos hlt]; exact le_of_lt hlt
        · rw [if_neg hlt]
      exact le_trans hfirst (ih _ _ (List.mem_cons_self _ _))
    · rcases List.mem_cons.mp h with h2 | h2
      · subst h2
        have hx : r.generatedAt ≤
            (if first.generatedAt < r.generatedAt then r else first).generatedAt := by
          by_cases hlt : first.generatedAt < r.generatedAt
          · rw [if_pos hlt]
          · rw [if_neg hlt]; exact not_lt.mp hlt
        exact le_trans hx (ih _ _ (List.mem_cons_self _ _))
      · exact ih _ _ (List.mem_cons_of_mem _ h2)

theorem baseOf_eq (first : Report) (rest : List Report) (b : Report)
    (hmem : b ∈ first :: rest)
    (hlatest : ∀ r ∈ first :: rest, r = b ∨ r.generatedAt < b.generatedAt) :
    baseOf first rest = b := by
  rcases hlatest (baseOf first rest) (baseOf_mem rest first) with h | h
  · exact h
  · exact absurd h (not_lt.mpr (baseOf_ge rest first b hmem))

theorem recomputeStats_aggInvariant (r : Report) : aggInvariant (recomputeStats r) := by
  refine ⟨rfl, rfl, rfl, ?_⟩
  intro p hp
  rw [recomputeStats] at hp
  simp only [List.mem_map] at hp
  obtain ⟨p0, _, hp0⟩ := hp
  subst hp0
  refine ⟨rfl, rfl, rfl, ?_⟩
  intro f hf
  rw [recomputePackage] at hf
  simp only [List.mem_map] at hf
  obtain ⟨f0, _, hf0⟩ := hf
  subst hf0
  exact ⟨rfl, rfl, rfl⟩

theorem recomputeFile_shape (f : FileReport) : fileShape (recomputeFile f) = fileShape f := rfl

theorem recomputeStats_shape (r : Report) : reportShape (recomputeStats r) = reportShape r := by
  simp only [reportShape, recomputeStats, List.map_map]
  refine List.map_congr_left ?_
  intro p _
  simp only [Function.comp, pkgShape, recomputePackage, List.map_map]
  rfl

theorem deepCopyFunc_eq (fn : FuncReport) : deepCopyFunc fn = fn := by
  rw [deepCopyFunc]
  by_cases h : fn.unreachedBlocks.length > 0
  · simp [h]
  · have hnil : fn.unreachedBlocks = [] := List.eq_nil_of_length_eq_zero (by omega)
    simp only [if_neg h]
    rw [← hnil]

theorem deepCopy_eq (src : Report) : deepCopy src = src := by
  rw [deepCopy]
  have hpkgs : (src.packages.map fun p =>
      { importPath := p.importPath
        total := p.total
        files := p.files.map fun f =>
          { fileName := f.fileName
            total := f.total
            functions := f.functions.map deepCopyFunc : FileReport } : PackageReport }) =
      src.packages := by
    refine (List.map_congr_left ?_).trans (List.map_id _)
    intro p _
    have hfiles : (p.files.map fun f =>
        { fileName := f.fileName
          total := f.total
          functions := f.functions.map deepCopyFunc : FileReport }) = p.files := by
      refine (List.map_congr_left ?_).trans (List.map_id _)
      intro f _
      have hfns : f.functions.map deepCopyFunc = f.functions := by
        refine (List.map_congr_left ?_).trans (List.map_id _)
        intro fn _
        exact deepCopyFunc_eq fn
      rw [hfns]
      rfl
    rw [hfiles]
    rfl
  rw [hpkgs]

/-! ## Lemmas: the multi-report merge equals its spec description -/

theorem lookupFn_eq_specWinner (rs : List Report) (fname : String) (fn : FuncReport) :
    (match buildLookup rs ⟨fname, fn.name⟩ with
     | some best => mkFuncReport fn.name best
     | none => fn) = specWinner rs fname fn := by
  rw [specWinner, buildLookup_eq_firstMax]

theorem applyLookup_eq_specInner (rs : List Report) (b : Report) (now : Int) :
    applyLookup (buildLookup rs) b now =
      { version := b.version
        generatedAt := now
        mode := "merged"
        total := ⟨0, 0, 0⟩
        packages := b.packages.map fun p =>
          { importPath := p.importPath
            total := ⟨0, 0, 0⟩
            files := p.files.map fun f =>
              { fileName := f.fileName
                total := ⟨0, 0, 0⟩
                functions := f.functions.map (specWinner rs f.fileName) } } } := by
  rw [applyLookup]
  congr 1
  refine List.map_congr_left ?_
  intro p _
  congr 1
  refine List.map_congr_left ?_
  intro f _
  congr 1
  refine List.map_congr_left ?_
  intro fn _
  exact lookupFn_eq_specWinner rs f.fileName fn

theorem Merge_cons_cons (now : Int) (first r2 : Report) (t : List Report) :
    Merge now (first :: r2 :: t) =
      .ok (recomputeStats (applyLookup (buildLookup (first :: r2 :: t))
        (baseOf first (r2 :: t)) now)) := rfl

theorem merge_multi_spec (now : Int) (first r2 : Report) (t : List Report) :
    Merge now (first :: r2 :: t) =
      .ok (mergedSpec (first :: r2 :: t) (baseOf first (r2 :: t)) now) := by
  rw [Merge_cons_cons, mergedSpec, applyLookup_eq_specInner]

theorem specWinner_name (rs : List Report) (fname : String) (fn : FuncReport) :
    (specWinner rs fname fn).name = fn.name := by
  rw [specWinner]
  cases firstMax (entriesFor rs ⟨fname, fn.name⟩) <;> rfl

theorem mergedSpec_shape (rs : List Report) (b : Report) (now : Int) :
    reportShape (mergedSpec rs b now) = reportShape b := by
  rw [mergedSpec, recomputeStats_shape]
  simp only [reportShape, List.map_map]
  refine List.map_congr_left ?_
  intro p _
  simp only [Function.comp, pkgShape, List.map_map]
  refine congrArg _ ?_
  refine List.map_congr_left ?_
  intro f _
  simp only [Function.comp, fileShape, List.map_map]
  refine congrArg _ ?_
  refine List.map_congr_left ?_
  intro fn _
  exact specWinner_name rs f.fileName fn

theorem firstMax_singleton (e : FuncEntry) : firstMax [e] = some e := by
  have hp : (([e] : List FuncEntry).all fun e2 =>
      decide (e2.coveragePercent ≤ e.coveragePercent)) = true := by simp
  simp [firstMax, List.find?_cons_of_pos _ hp]

theorem mkFuncReport_entryOf (fn : FuncReport) : mkFuncReport fn.name (entryOf fn) = fn := rfl

theorem firstMax_spec (l : List FuncEntry) (e : FuncEntry) (h : firstMax l = some e) :
    e ∈ l ∧ ∀ e2 ∈ l, e2.coveragePercent ≤ e.coveragePercent := by
  constructor
  · exact List.mem_of_find?_eq_some h
  · have hp := List.find?_some h
    simp only [List.all_eq_true, decide_eq_true_eq] at hp
    exact hp

/-! ## Claim theorems for the merge engine -/

/-- C1 (code-bug evaluation): merging a percentage-only winner
(totalStatements == 0) with a full base keeps the winner's zero
totalStatements/coveredStatements/line verbatim in the merged output, and
the merged report total collapses to 0.  Nothing is backfilled from the
base report and coveredStatements is not recomputed from the winning
percent, contradicting the spec's backfill law and the repo's own
TestMerge_ZeroStatementReconcile test and analyze.go documentation. -/
theorem mergeDropsBackfill :
    funcsOf (reportOf (Merge 5 [c1old, c1new])) =
      [{ name := "Foo", line := 0, totalStatements := 0, coveredStatements := 0,
         coveragePercent := 80, unreachedBlocks := [] }] ∧
    (reportOf (Merge 5 [c1old, c1new])).total.totalStatements = 0 ∧
    (reportOf (Merge 5 [c1old, c1new])).total.coveredStatements = 0 := by
  refine ⟨?_, ?_, ?_⟩ <;>
    norm_num [Merge, c1old, c1new, mkReport1, funcsOf, reportOf, recomputeStats,
      recomputePackage, recomputeFile, applyLookup, buildLookup, mergeStream, reportStream,
      foldLookup, updateLookup, entryOf, mkFuncReport, baseOf, ComputePercent]

/-- C2 (code-bug evaluation): when an older percentage-only entry wins,
the merged function record carries only the winner's (empty) unreached
block list; the base report's unreached blocks appear nowhere in the
merged report, and the FuncReport schema has no latestUnreachedBlocks
field at all, contradicting the spec's provenance rule and the repo's own
TestMerge_LatestUnreachedBlocks test. -/
theorem mergeDropsLatestUnreached :
    funcsOf (reportOf (Merge 5 [c2old, c2new])) =
      [{ name := "Foo", line := 0, totalStatements := 0, coveredStatements := 0,
         coveragePercent := 80, unreachedBlocks := [] }] ∧
    (funcsOf (reportOf (Merge 5 [c2old, c2new]))).flatMap (·.unreachedBlocks) = [] := by
  have h1 : funcsOf (reportOf (Merge 5 [c2old, c2new])) =
      [{ name := "Foo", line := 0, totalStatements := 0, coveredStatements := 0,
         coveragePercent := 80, unreachedBlocks := [] }] := by
    norm_num [Merge, c2old, c2new, mkReport1, funcsOf, reportOf, recomputeStats,
      recomputePackage, recomputeFile, applyLookup, buildLookup, mergeStream, reportStream,
      foldLookup, updateLookup, entryOf, mkFuncReport, baseOf, ComputePercent]
  exact ⟨h1, by rw [h1]; rfl⟩

/-- C3: for any merge of at least two reports whose latest-generatedAt
report is b (uniquely), the merge succeeds and equals the spec-side
description: the output has exactly b's package/file/function tree shape
(functions only in older reports are absent), each function's merged
record is built from the first-encountered best-coverage entry for its
(fileName, name) key across all reports in
report-then-file-then-function order, a function whose key occurs
exactly once (present only in the base) is kept as-is, and the selected
entry's coveragePercent is the maximum over all inputs. -/
theorem merge_base_structure_max (now : Int) (first r2 : Report) (t : List Report)
    (b : Report) (hmem : b ∈ first :: r2 :: t)
    (hlatest : ∀ r ∈ first :: r2 :: t, r = b ∨ r.generatedAt < b.generatedAt) :
    Merge now (first :: r2 :: t) = .ok (mergedSpec (first :: r2 :: t) b now) ∧
    reportShape (mergedSpec (first :: r2 :: t) b now) = reportShape b ∧
    (∀ (fname : String) (fn : FuncReport),
      entriesFor (first :: r2 :: t) ⟨fname, fn.name⟩ = [entryOf fn] →
      specWinner (first :: r2 :: t) fname fn = fn) ∧
    (∀ (k : FuncKey) (e : FuncEntry),
      firstMax (entriesFor (first :: r2 :: t) k) = some e →
      e ∈ entriesFor (first :: r2 :: t) k ∧
      ∀ e2 ∈ entriesFor (first :: r2 :: t) k,
        e2.coveragePercent ≤ e.coveragePercent) := by
  refine ⟨?_, mergedSpec_shape _ _ _, ?_, ?_⟩
  · rw [merge_multi_spec, baseOf_eq first (r2 :: t) b hmem hlatest]
  · intro fname fn hone
    rw [specWinner, hone, firstMax_singleton]
    rfl
  · intro k e he
    exact firstMax_spec _ _ he

/-- Witness for C3 at a concrete two-report merge. -/
theorem merge_base_structure_max_witness :
    Merge 5 (c3a :: c3b :: []) = .ok (mergedSpec (c3a :: c3b :: []) c3b 5) ∧
    reportShape (mergedSpec (c3a :: c3b :: []) c3b 5) = reportShape c3b ∧
    (∀ (fname : String) (fn : FuncReport),
      entriesFor (c3a :: c3b :: []) ⟨fname, fn.name⟩ = [entryOf fn] →
      specWinner (c3a :: c3b :: []) fname fn = fn) ∧
    (∀ (k : FuncKey) (e : FuncEntry),
      firstMax (entriesFor (c3a :: c3b :: []) k) = some e →
      e ∈ entriesFor (c3a :: c3b :: []) k ∧
      ∀ e2 ∈ entriesFor (c3a :: c3b :: []) k,
        e2.coveragePercent ≤ e.coveragePercent) :=
  merge_base_structure_max 5 c3a c3b [] c3b (by simp)
    (by
      intro r hr
      rcases List.mem_cons.mp hr with h | h
      · right
        subst h
        norm_num [c3a, c3b, mkReport1]
      · rcases List.mem_cons.mp h with h2 | h2
        · left; exact h2
        · simp at h2)

/-- C4 counterexample: the single-report merge copies the input's stale
aggregate fields verbatim, so the claim's "including the single-report
merge case ... recomputed from those sums" is false: here the merged
total says 7 statements while the package sum is 0. -/
theorem merge_single_keeps_stale_totals :
    (reportOf (Merge 5 [c4stale])).total.totalStatements = 7 ∧
    ((reportOf (Merge 5 [c4stale])).packages.map (·.total.totalStatements)).sum = 0 ∧
    ¬ aggInvariant (reportOf (Merge 5 [c4stale])) := by
  have hm : Merge 5 [c4stale] = .ok { c4stale with generatedAt := 5, mode := "merged" } := by
    have h0 : Merge 5 [c4stale] =
        .ok { deepCopy c4stale with generatedAt := 5, mode := "merged" } := rfl
    rw [h0, deepCopy_eq]
  refine ⟨by rw [hm]; rfl, by rw [hm]; rfl, ?_⟩
  rw [hm]
  intro hinv
  obtain ⟨h1, _⟩ := hinv
  simp [reportOf, c4stale] at h1

/-- C4 (amended): after a merge of at least two reports the aggregate
invariant holds at every level with every percent recomputed from the
sums; the single-report merge instead returns the input verbatim with
only generatedAt and mode re-stamped, so its (possibly stale) aggregate
fields are copied, not recomputed. -/
theorem merge_aggregates_amended :
    (∀ (now : Int) (first r2 : Report) (t : List Report) (m : Report),
      Merge now (first :: r2 :: t) = Except.ok m → aggInvariant m) ∧
    (∀ (now : Int) (r : Report),
      Merge now [r] = Except.ok { r with generatedAt := now, mode := "merged" }) := by
  constructor
  · intro now first r2 t m hm
    rw [Merge_cons_cons] at hm
    injection hm with h
    subst h
    exact recomputeStats_aggInvariant _
  · intro now r
    have h0 : Merge now [r] =
        Except.ok { deepCopy r with generatedAt := now, mode := "merged" } := rfl
    rw [h0, deepCopy_eq]

/-- Witness for C4's amended theorem at concrete inputs. -/
theorem merge_aggregates_amended_witness :
    aggInvariant (reportOf (Merge 5 (c4a :: c4b :: []))) ∧
    Merge 7 [c4stale] = Except.ok { c4stale with generatedAt := 7, mode := "merged" } :=
  ⟨merge_aggregates_amended.1 5 c4a c4b [] (reportOf (Merge 5 (c4a :: c4b :: []))) rfl,
   merge_aggregates_amended.2 7 c4stale⟩

/-- C5: a coverage block overlaps a function extent exactly when the
block's start position is not lexicographically after the extent's end
and the block's end position is not lexicographically before the
extent's start, compared on (line, column) with equality on both
boundaries counting as overlap. -/
theorem blockOverlapsFunc_iff (b : ProfileBlock) (fn : FuncExtent) :
    blockOverlapsFunc b fn = true ↔
      ¬ posLt fn.endLine fn.endCol b.startLine b.startCol ∧
      ¬ posLt b.endLine b.endCol fn.startLine fn.startCol := by
  unfold blockOverlapsFunc posLt
  split
  · constructor
    · intro h; exact absurd h (by simp)
    · intro h; exfalso; omega
  · split
    · constructor
      · intro h; exact absurd h (by simp)
      · intro h; exfalso; omega
    · split
      · constructor
        · intro h; exact absurd h (by simp)
        · intro h; exfalso; omega
      · split
        · constructor
          · intro h; exact absurd h (by simp)
          · intro h; exfalso; omega
        · constructor
          · intro _; constructor <;> omega
          · intro _; rfl

/-! ## Lemmas: the matcher loop computes the spec sums -/

theorem specTotal_cons (b : ProfileBlock) (bs : List ProfileBlock) (fn : FuncExtent) :
    specTotal (b :: bs) fn =
      (if blockOverlapsFunc b fn then b.numStmt else 0) + specTotal bs fn := by
  by_cases h : blockOverlapsFunc b fn <;> simp [specTotal, List.filter_cons, h]

theorem specCovered_cons (b : ProfileBlock) (bs : List ProfileBlock) (fn : FuncExtent) :
    specCovered (b :: bs) fn =
      (if blockOverlapsFunc b fn ∧ 0 < b.count then b.numStmt else 0) + specCovered bs fn := by
  by_cases h1 : blockOverlapsFunc b fn <;> by_cases h2 : 0 < b.count <;>
    simp [specCovered, List.filter_cons, h1, h2]

theorem specUnreached_cons (b : ProfileBlock) (bs : List ProfileBlock) (fn : FuncExtent) :
    specUnreached (b :: bs) fn =
      (if blockOverlapsFunc b fn ∧ b.count = 0 then [toUnreached b] else []) ++
        specUnreached bs fn := by
  by_cases h1 : blockOverlapsFunc b fn <;> by_cases h2 : b.count = 0 <;>
    simp [specUnreached, List.filter_cons, h1, h2]

theorem matchBlocks_loop (fn : FuncExtent) (bs : List ProfileBlock) :
    (∀ b ∈ bs, 0 ≤ b.count) →
    ∀ acc : Int × Int × List UnreachedBlock,
      bs.foldl (matchBlocksStep fn) acc =
        (acc.1 + specTotal bs fn, acc.2.1 + specCovered bs fn,
         acc.2.2 ++ specUnreached bs fn) := by
  induction bs with
  | nil => intro _ acc; simp [specTotal, specCovered, specUnreached]
  | cons b t ih =>
    intro hc acc
    obtain ⟨t0, c0, u0⟩ := acc
    rw [List.foldl_cons, ih (fun x hx => hc x (List.mem_cons_of_mem _ hx))]
    have hb := hc b (List.mem_cons_self _ _)
    by_cases h1 : blockOverlapsFunc b fn = true
    · by_cases h2 : 0 < b.count
      · have h3 : ¬ b.count = 0 := by omega
        have hT : specTotal (b :: t) fn = b.numStmt + specTotal t fn := by
          rw [specTotal_cons, if_pos h1]
        have hC : specCovered (b :: t) fn = b.numStmt + specCovered t fn := by
          rw [specCovered_cons, if_pos (And.intro h1 h2)]
        have hU : specUnreached (b :: t) fn = specUnreached t fn := by
          rw [specUnreached_cons, if_neg (fun hcon => h3 hcon.2)]
          exact List.nil_append _
        have hstep : matchBlocksStep fn (t0, c0, u0) b =
            (t0 + b.numStmt, c0 + b.numStmt, u0) := by
          simp [matchBlocksStep, h1, h2]
        rw [hstep, hT, hC, hU]
        simp [add_assoc]
      · have h3 : b.count = 0 := by omega
        have hT : specTotal (b :: t) fn = b.numStmt + specTotal t fn := by
          rw [specTotal_cons, if_pos h1]
        have hC : specCovered (b :: t) fn = specCovered t fn := by
          rw [specCovered_cons, if_neg (fun hcon => h2 hcon.2)]
          exact zero_add _
        have hU : specUnreached (b :: t) fn = toUnreached b :: specUnreached t fn := by
          rw [specUnreached_cons, if_pos (And.intro h1 h3)]
          rfl
        have hstep : matchBlocksStep fn (t0, c0, u0) b =
            (t0 + b.numStmt, c0, u0 ++ [toUnreached b]) := by
          simp [matchBlocksStep, h1, h2]
        rw [hstep, hT, hC, hU]
        simp [add_assoc]
    · have hT : specTotal (b :: t) fn = specTotal t fn := by
        rw [specTotal_cons, if_neg h1]
        exact zero_add _
      have hC : specCovered (b :: t) fn = specCovered t fn := by
        rw [specCovered_cons, if_neg (fun hcon => h1 hcon.1)]
        exact zero_add _
      have hU : specUnreached (b :: t) fn = specUnreached t fn := by
        rw [specUnreached_cons, if_neg (fun hcon => h1 hcon.1)]
        exact List.nil_append _
      have hstep : matchBlocksStep fn (t0, c0, u0) b = (t0, c0, u0) := by
        simp [matchBlocksStep, h1]
      rw [hstep, hT, hC, hU]

theorem matchBlocks_spec (blocks : List ProfileBlock) (fn : FuncExtent)
    (hc : ∀ b ∈ blocks, 0 ≤ b.count) :
    matchBlocks blocks fn =
      (specTotal blocks fn, specCovered blocks fn, specUnreached blocks fn) := by
  rw [matchBlocks, matchBlocks_loop fn blocks hc (0, 0, [])]
  simp

/-! ## Lemmas: analyzeFile equals its spec description -/

theorem analyzeFile_loop (blocks : List ProfileBlock) (opts : Options)
    (hc : ∀ b ∈ blocks, 0 ≤ b.count) (fns : List FuncExtent) :
    ∀ (l : List FuncReport) (t c : Int),
      fns.foldl (analyzeFuncStep blocks opts) (l, t, c) =
        (l ++ (fns.filter (visibleFn blocks opts)).map (specFuncReport blocks),
         t + ((fns.filter (countedFn blocks)).map (specTotal blocks)).sum,
         c + ((fns.filter (countedFn blocks)).map (specCovered blocks)).sum) := by
  induction fns with
  | nil => intro l t c; simp
  | cons fn rest ih =>
    intro l t c
    rw [List.foldl_cons]
    by_cases hz : specTotal blocks fn = 0
    · have hcf : countedFn blocks fn = false := by simp [countedFn, hz]
      have hvf : visibleFn blocks opts fn = false := by simp [visibleFn, hz]
      have hstep : analyzeFuncStep blocks opts (l, t, c) fn = (l, t, c) := by
        rw [analyzeFuncStep, matchBlocks_spec blocks fn hc]
        simp [hz]
      rw [hstep, ih, List.filter_cons, List.filter_cons, hcf, hvf]
      simp
    · have hcf : countedFn blocks fn = true := by simp [countedFn, hz]
      by_cases hth : opts.threshold <
          ComputePercent (specCovered blocks fn) (specTotal blocks fn)
      · have hvf : visibleFn blocks opts fn = false := by
          simp [visibleFn, not_le.mpr hth]
        have hstep : analyzeFuncStep blocks opts (l, t, c) fn =
            (l, t + specTotal blocks fn, c + specCovered blocks fn) := by
          rw [analyzeFuncStep, matchBlocks_spec blocks fn hc]
          simp [hz, hth]
        rw [hstep, ih, List.filter_cons, List.filter_cons, hcf, hvf]
        simp [add_assoc]
      · by_cases hmin : specTotal blocks fn - specCovered blocks fn < opts.minStatements
        · have hvf : visibleFn blocks opts fn = false := by
            simp [visibleFn, not_le.mpr hmin]
          have hstep : analyzeFuncStep blocks opts (l, t, c) fn =
              (l, t + specTotal blocks fn, c + specCovered blocks fn) := by
            rw [analyzeFuncStep, matchBlocks_spec blocks fn hc]
            simp [hz, hth, hmin]
          rw [hstep, ih, List.filter_cons, List.filter_cons, hcf, hvf]
          simp [add_assoc]
        · have hvf : visibleFn blocks opts fn = true := by
            simp [visibleFn, hz, not_lt.mp hth, not_lt.mp hmin]
          have hstep : analyzeFuncStep blocks opts (l, t, c) fn =
              (l ++ [specFuncReport blocks fn],
               t + specTotal blocks fn, c + specCovered blocks fn) := by
            rw [analyzeFuncStep, matchBlocks_spec blocks fn hc]
            simp [hz, hth, hmin, specFuncReport]
          rw [hstep, ih, List.filter_cons, List.filter_cons, hcf, hvf]
          simp [add_assoc]

theorem analyzeFile_eq_spec (blocks : List ProfileBlock) (funcs : List FuncExtent)
    (opts : Options) (hc : ∀ b ∈ blocks, 0 ≤ b.count) :
    analyzeFile blocks funcs opts = analyzeFileSpec blocks funcs opts := by
  rw [analyzeFile, analyzeFileSpec, analyzeFile_loop blocks opts hc funcs [] 0 0]
  simp

/-- C6: for every function extent and block list (with non-negative
execution counters), the matcher computes totalStatements as the sum of
numStatements over the overlapping blocks, coveredStatements as the same
sum restricted to blocks with executionCount > 0, and unreachedBlocks as
the overlapping blocks with executionCount == 0 in source order; and
analyzeFile equals its spec description, in which a function with zero
overlapping-block statement total appears neither in the visible output
nor in the file aggregate sums. -/
theorem analyzeFile_matcher_sums (blocks : List ProfileBlock) (funcs : List FuncExtent)
    (opts : Options) (hc : ∀ b ∈ blocks, 0 ≤ b.count) :
    (∀ fn : FuncExtent, matchBlocks blocks fn =
      (specTotal blocks fn, specCovered blocks fn, specUnreached blocks fn)) ∧
    analyzeFile blocks funcs opts = analyzeFileSpec blocks funcs opts :=
  ⟨fun fn => matchBlocks_spec blocks fn hc, analyzeFile_eq_spec blocks funcs opts hc⟩

/-- Witness for C6 at a concrete block list and function list. -/
theorem analyzeFile_matcher_sums_witness :
    (∀ b ∈ blocksW, 0 ≤ b.count) ∧
    ((∀ fn : FuncExtent, matchBlocks blocksW fn =
      (specTotal blocksW fn, specCovered blocksW fn, specUnreached blocksW fn)) ∧
    analyzeFile blocksW funcsW optsW = analyzeFileSpec blocksW funcsW optsW) :=
  ⟨by decide, analyzeFile_matcher_sums blocksW funcsW optsW (by decide)⟩

/-- C7: any file report produced by analyzeFile lists exactly the
functions whose coverage percent is at most the threshold and whose
unreached statement count is at least minStatements (among those with a
nonzero statement total), both bounds inclusive, while its aggregate
totals sum over every nonzero-total function, including the ones the
filters dropped. -/
theorem analyzeFile_visibility (blocks : List ProfileBlock) (funcs : List FuncExtent)
    (opts : Options) (fr : FileReport)
    (hc : ∀ b ∈ blocks, 0 ≤ b.count)
    (h : analyzeFile blocks funcs opts = some fr) :
    fr.functions = (funcs.filter (visibleFn blocks opts)).map (specFuncReport blocks) ∧
    fr.total.totalStatements =
      ((funcs.filter (countedFn blocks)).map (specTotal blocks)).sum ∧
    fr.total.coveredStatements =
      ((funcs.filter (countedFn blocks)).map (specCovered blocks)).sum := by
  rw [analyzeFile_eq_spec blocks funcs opts hc] at h
  simp only [analyzeFileSpec] at h
  by_cases hzero : ((funcs.filter (countedFn blocks)).map (specTotal blocks)).sum = 0
  · rw [if_pos hzero] at h
    exact absurd h (by simp)
  · rw [if_neg hzero] at h
    have h2 := Option.some.inj h
    subst h2
    exact ⟨rfl, rfl, rfl⟩

/-- Witness for C7: a function sitting exactly on both filter boundaries
(coverage 50% with threshold 50, 2 unreached statements with
minStatements 2) is visible and counted. -/
theorem analyzeFile_visibility_witness :
    analyzeFile blocksW funcsW optsW = some frW ∧
    (frW.functions = (funcsW.filter (visibleFn blocksW optsW)).map (specFuncReport blocksW) ∧
     frW.total.totalStatements =
       ((funcsW.filter (countedFn blocksW)).map (specTotal blocksW)).sum ∧
     frW.total.coveredStatements =
       ((funcsW.filter (countedFn blocksW)).map (specCovered blocksW)).sum) :=
  have hEval : analyzeFile blocksW funcsW optsW = some frW := by
    norm_num [analyzeFile, analyzeFuncStep, matchBlocks, matchBlocksStep, blockOverlapsFunc,
      toUnreached, ComputePercent, blocksW, funcsW, optsW, frW]
  ⟨hEval, analyzeFile_visibility blocksW funcsW optsW frW (by decide) hEval⟩

/-! ## Lemmas: degenerate inputs for Merge and Run -/

theorem analyzeFile_no_funcs (blocks : List ProfileBlock) (opts : Options) :
    analyzeFile blocks [] opts = none := by
  rw [analyzeFile]
  simp

theorem analyzePackage_none (importPath diskDir : String) (profiles : List Profile)
    (ff : String → Except String (List FuncExtent)) (opts : Options)
    (hff : ∀ path, (∃ e, ff path = .error e) ∨ ff path = .ok []) :
    analyzePackage importPath diskDir profiles ff opts = none := by
  rw [analyzePackage]
  have hloop : ∀ (l : List Profile) (acc : List FileReport × Int × Int),
      l.foldl (analyzePackageStep diskDir ff opts) acc = acc := by
    intro l
    induction l with
    | nil => intro acc; rfl
    | cons p t ih =>
      intro acc
      rw [List.foldl_cons]
      have hstep : analyzePackageStep diskDir ff opts acc p = acc := by
        rw [analyzePackageStep]
        rcases hff (diskDir ++ "/" ++ baseOfPath p.fileName) with ⟨e, he⟩ | he
        · rw [he]
        · rw [he]
          simp [analyzeFile_no_funcs]
      rw [hstep, ih]
  rw [hloop]
  rfl

theorem Run_nil (opts : Options)
    (goList : List String → Except String (List (String × String)))
    (ff : String → Except String (List FuncExtent)) :
    Run [] opts goList ff =
      .ok { version := 1, generatedAt := 0, mode := "set", total := ⟨0, 0, 0⟩,
            packages := [] } := rfl

theorem Run_no_functions (profiles : List Profile) (opts : Options)
    (goList : List String → Except String (List (String × String)))
    (ff : String → Except String (List FuncExtent))
    (pkgPaths : List (String × String))
    (hresolve : resolvePackages goList ((groupByPackage profiles).map (·.1)) = .ok pkgPaths)
    (hff : ∀ path, (∃ e, ff path = .error e) ∨ ff path = .ok []) :
    Run profiles opts goList ff =
      .ok { version := 1, generatedAt := 0, mode := modeOf profiles, total := ⟨0, 0, 0⟩,
            packages := [] } := by
  rw [Run, hresolve]
  have hstep : ∀ (acc : List PackageReport × Int × Int) (ip : String),
      runStep (groupByPackage profiles) pkgPaths opts ff acc ip = acc := by
    intro acc ip
    rw [runStep]
    cases hA : assocFind (groupByPackage profiles) ip with
    | none => rfl
    | some profs =>
      by_cases hm : matchesPrefixes ip opts.pkgPrefixes = true
      · simp only [hm, if_true, ite_true]
        cases hB : assocFind pkgPaths ip with
        | none => rfl
        | some diskDir =>
          dsimp only
          rw [analyzePackage_none _ _ _ _ _ hff]
      · have hm2 : matchesPrefixes ip opts.pkgPrefixes = false := Bool.eq_false_iff.mpr hm
        simp only [hm2, Bool.false_eq_true, if_false, ite_false]
  have hloop : ∀ (l : List String),
      l.foldl (runStep (groupByPackage profiles) pkgPaths opts ff) ([], 0, 0) = ([], 0, 0) := by
    intro l
    induction l with
    | nil => rfl
    | cons ip t ih => rw [List.foldl_cons, hstep, ih]
  dsimp only
  rw [hloop]
  rfl

/-- C9: Merge fails exactly on the empty report list (with its fixed
error message) and succeeds on every non-empty list; the analysis
pipeline over zero profiles returns a valid report with zero totals and
no packages without consulting any collaborator, and when every source
file is unparsable or empty (so no function is matched) it likewise
returns a zero-total, package-free report instead of failing. -/
theorem merge_run_degenerate :
    (∀ now : Int, Merge now [] = .error "merge requires at least 1 report, got 0") ∧
    (∀ (now : Int) (rs : List Report), rs ≠ [] → ∃ m, Merge now rs = .ok m) ∧
    (∀ (opts : Options) (goList : List String → Except String (List (String × String)))
       (ff : String → Except String (List FuncExtent)),
      Run [] opts goList ff =
        .ok { version := 1, generatedAt := 0, mode := "set", total := ⟨0, 0, 0⟩,
              packages := [] }) ∧
    (∀ (profiles : List Profile) (opts : Options)
       (goList : List String → Except String (List (String × String)))
       (ff : String → Except String (List FuncExtent))
       (pkgPaths : List (String × String)),
      resolvePackages goList ((groupByPackage profiles).map (·.1)) = .ok pkgPaths →
      (∀ path, (∃ e, ff path = .error e) ∨ ff path = .ok []) →
      Run profiles opts goList ff =
        .ok { version := 1, generatedAt := 0, mode := modeOf profiles, total := ⟨0, 0, 0⟩,
              packages := [] }) := by
  refine ⟨fun now => rfl, ?_, fun opts goList ff => Run_nil opts goList ff, ?_⟩
  · intro now rs hne
    match rs with
    | [] => exact absurd rfl hne
    | [r] => exact ⟨_, rfl⟩
    | r1 :: r2 :: t => exact ⟨_, rfl⟩
  · intro profiles opts goList ff pkgPaths h1 h2
    exact Run_no_functions profiles opts goList ff pkgPaths h1 h2

/-- Witness for C9: a one-report merge succeeds, and Run over one profile
whose source cannot be parsed yields the empty report. -/
theorem merge_run_degenerate_witness :
    (∃ m, Merge 3 [c9r] = .ok m) ∧
    Run [profW] ⟨[], 100, 0⟩ (fun _ => .ok []) (fun _ => .error "parse") =
      .ok { version := 1, generatedAt := 0, mode := modeOf [profW], total := ⟨0, 0, 0⟩,
            packages := [] } :=
  ⟨merge_run_degenerate.2.1 3 [c9r] (by simp),
   merge_run_degenerate.2.2.2 [profW] ⟨[], 100, 0⟩ (fun _ => .ok [])
     (fun _ => .error "parse") [] rfl (fun _ => Or.inl ⟨"parse", rfl⟩)⟩

/-! ## Lemmas: FileFuncs and bodyless declarations -/

theorem fileFuncsDecls_none (decls : List Decl) (name : String) (recv : Option TypeExpr)
    (h : Decl.funcDecl name recv none ∈ decls) : fileFuncsDecls decls = none := by
  induction decls with
  | nil => simp at h
  | cons d rest ih =>
    rcases List.mem_cons.mp h with h1 | h1
    · rw [← h1]
      rfl
    · cases d with
      | genDecl =>
        rw [show fileFuncsDecls (Decl.genDecl :: rest) = fileFuncsDecls rest from rfl, ih h1]
      | funcDecl n r b =>
        cases b with
        | none => rfl
        | some be =>
          rw [show fileFuncsDecls (Decl.funcDecl n r (some be) :: rest) =
            (match fileFuncsDecls rest with
             | none => none
             | some fs =>
               some
                 ({ name := funcNameOf n r
                    startLine := be.startLine
                    startCol := be.startCol
                    endLine := be.endLine
                    endCol := be.endCol } :: fs)) from rfl, ih h1]

/-- C10: on any successfully parsed file containing a function
declaration without a body (an assembly-backed declaration, whose
ast.FuncDecl.Body is nil), FileFuncs dereferences the nil body and the
traversal panics instead of returning an error or skipping the
declaration; the error return covers only parse failures. -/
theorem fileFuncs_nil_body_panics (f : GoFile) (name : String) (recv : Option TypeExpr)
    (h : Decl.funcDecl name recv none ∈ f.decls) :
    FileFuncs (Except.ok f) = GoResult.panicked ∧
    ∀ e, FileFuncs (Except.error e) = GoResult.err ("astmap: parse: " ++ e) := by
  constructor
  · rw [FileFuncs, fileFuncsDecls_none f.decls name recv h]
  · intro e; rfl

/-- Witness for C10 at a concrete file with a bodyless declaration. -/
theorem fileFuncs_nil_body_panics_witness :
    FileFuncs (Except.ok c10file) = GoResult.panicked ∧
    ∀ e, FileFuncs (Except.error e) = GoResult.err ("astmap: parse: " ++ e) :=
  fileFuncs_nil_body_panics c10file "Add" none (by decide)

/-! ## Lemmas: build-group partitioning -/

theorem assocAppend_self {α : Type} (gs : List (String × List α)) (k : String) (v : α) :
    assocFind (assocAppend gs k v) k = some ((assocFind gs k).getD [] ++ [v]) := by
  induction gs with
  | nil => simp [assocAppend, assocFind]
  | cons kv t ih =>
    obtain ⟨k2, vs⟩ := kv
    by_cases h : k2 = k
    · subst h
      simp [assocAppend, assocFind]
    · simp [assocAppend, assocFind, h, ih]

theorem assocAppend_other {α : Type} (gs : List (String × List α)) (k k2 : String) (v : α)
    (h : k2 ≠ k) : assocFind (assocAppend gs k v) k2 = assocFind gs k2 := by
  induction gs with
  | nil => simp [assocAppend, assocFind, Ne.symm h]
  | cons kv t ih =>
    obtain ⟨k3, vs⟩ := kv
    by_cases h3 : k3 = k
    · subst h3
      simp [assocAppend, assocFind, h, Ne.symm h]
    · simp only [assocAppend, if_neg h3]
      by_cases h4 : k3 = k2
      · subst h4
        simp [assocFind]
      · simp [assocFind, h4, ih]

theorem assocFind_mem {α : Type} (gs : List (String × α)) (k : String) (v : α)
    (h : assocFind gs k = some v) : (k, v) ∈ gs := by
  induction gs with
  | nil => simp [assocFind] at h
  | cons kv t ih =>
    obtain ⟨k2, v2⟩ := kv
    by_cases h2 : k2 = k
    · subst h2
      rw [assocFind, if_pos rfl] at h
      exact List.mem_cons.mpr (Or.inl (by rw [Option.some.inj h]))
    · rw [assocFind, if_neg h2] at h
      exact List.mem_cons.mpr (Or.inr (ih h))

theorem groupFold_lookup (ds : List CovDir) :
    ∀ (gs : List (String × List CovDir)) (k : String),
      assocFind (ds.foldl (fun a d => assocAppend a (fingerprint d) d) gs) k =
        match assocFind gs k with
        | some vs => some (vs ++ ds.filter fun d => fingerprint d = k)
        | none =>
          if (ds.filter fun d => fingerprint d = k).isEmpty then none
          else some (ds.filter fun d => fingerprint d = k) := by
  induction ds with
  | nil =>
    intro gs k
    cases h : assocFind gs k <;> simp [h]
  | cons d t ih =>
    intro gs k
    rw [List.foldl_cons, ih]
    by_cases hd : fingerprint d = k
    · rw [← hd, assocAppend_self]
      rw [show (List.filter (fun d2 => decide (fingerprint d2 = fingerprint d)) (d :: t)) =
        d :: List.filter (fun d2 => decide (fingerprint d2 = fingerprint d)) t from by
          simp [List.filter_cons]]
      cases h : assocFind gs (fingerprint d) with
      | none => simp
      | some vs => simp
    · rw [assocAppend_other _ _ _ _ (Ne.symm hd)]
      rw [show (List.filter (fun d2 => decide (fingerprint d2 = k)) (d :: t)) =
        List.filter (fun d2 => decide (fingerprint d2 = k)) t from by
          simp [List.filter_cons, hd]]

theorem groupByMetaHash_lookup (ds : List CovDir) (k : String) :
    assocFind (groupByMetaHash ds) k =
      if (ds.filter fun d => fingerprint d = k).isEmpty then none
      else some (ds.filter fun d => fingerprint d = k) := by
  rw [groupByMetaHash, groupFold_lookup]
  rfl

theorem assocAppend_fp_inv (gs : List (String × List CovDir)) (k : String) (v : CovDir)
    (hv : fingerprint v = k)
    (hinv : ∀ kv ∈ gs, ∀ d ∈ kv.2, fingerprint d = kv.1) :
    ∀ kv ∈ assocAppend gs k v, ∀ d ∈ kv.2, fingerprint d = kv.1 := by
  induction gs with
  | nil =>
    intro kv hkv d hd
    simp [assocAppend] at hkv
    subst hkv
    simp at hd
    subst hd
    exact hv
  | cons kv0 t ih =>
    obtain ⟨k2, vs⟩ := kv0
    by_cases h2 : k2 = k
    · subst h2
      intro kv hkv d hd
      rw [assocAppend, if_pos rfl] at hkv
      rcases List.mem_cons.mp hkv with h3 | h3
      · subst h3
        rcases List.mem_append.mp hd with h4 | h4
        · exact hinv (k2, vs) (List.mem_cons_self _ _) d h4
        · simp at h4
          subst h4
          exact hv
      · exact hinv kv (List.mem_cons_of_mem _ h3) d hd
    · intro kv hkv d hd
      rw [assocAppend, if_neg h2] at hkv
      rcases List.mem_cons.mp hkv with h3 | h3
      · subst h3
        exact hinv (k2, vs) (List.mem_cons_self _ _) d hd
      · exact ih (fun kv2 hkv2 => hinv kv2 (List.mem_cons_of_mem _ hkv2)) kv h3 d hd

theorem groupByMetaHash_fp_inv (ds : List CovDir) :
    ∀ kv ∈ groupByMetaHash ds, ∀ d ∈ kv.2, fingerprint d = kv.1 := by
  rw [groupByMetaHash]
  have hgen : ∀ (l : List CovDir) (gs : List (String × List CovDir)),
      (∀ kv ∈ gs, ∀ d ∈ kv.2, fingerprint d = kv.1) →
      ∀ kv ∈ l.foldl (fun a d => assocAppend a (fingerprint d) d) gs,
        ∀ d ∈ kv.2, fingerprint d = kv.1 := by
    intro l
    induction l with
    | nil => intro gs hinv; exact hinv
    | cons d t ih =>
      intro gs hinv
      rw [List.foldl_cons]
      exact ih _ (assocAppend_fp_inv gs (fingerprint d) d rfl hinv)
  exact hgen ds [] (by simp)

theorem natMaxStep_fold (l : List Nat) :
    ∀ a : Nat, (∀ t ∈ l, t ≤ l.foldl natMaxStep a) ∧ a ≤ l.foldl natMaxStep a ∧
      (l.foldl natMaxStep a = a ∨ l.foldl natMaxStep a ∈ l) := by
  induction l with
  | nil => intro a; exact ⟨by simp, le_refl a, Or.inl rfl⟩
  | cons x t ih =>
    intro a
    rw [List.foldl_cons]
    obtain ⟨ih1, ih2, ih3⟩ := ih (natMaxStep a x)
    have hax : a ≤ natMaxStep a x ∧ x ≤ natMaxStep a x := by
      rw [natMaxStep]
      by_cases h : a < x
      · rw [if_pos h]; exact ⟨le_of_lt h, le_refl x⟩
      · rw [if_neg h]; exact ⟨le_refl a, not_lt.mp h⟩
    refine ⟨?_, le_trans hax.1 ih2, ?_⟩
    · intro t2 ht2
      rcases List.mem_cons.mp ht2 with h | h
      · subst h; exact le_trans hax.2 ih2
      · exact ih1 t2 h
    · rcases ih3 with h | h
      · rw [h, natMaxStep]
        by_cases h2 : a < x
        · rw [if_pos h2]; exact Or.inr (List.mem_cons_self _ _)
        · rw [if_neg h2]; exact Or.inl rfl
      · exact Or.inr (List.mem_cons_of_mem _ h)

theorem newestCounterTime_eq_fold (dirs : List CovDir) :
    newestCounterTime dirs = (counterTimes dirs).foldl natMaxStep 0 := by
  rw [newestCounterTime]
  have hinner : ∀ (files : List CovFile) (a : Nat),
      files.foldl
        (fun newest2 f =>
          if strHasPrefix f.name "covcounters." then
            if newest2 < f.mtime then f.mtime else newest2
          else newest2) a =
      ((files.filter fun f => strHasPrefix f.name "covcounters.").map (·.mtime)).foldl
        natMaxStep a := by
    intro files
    induction files with
    | nil => intro a; rfl
    | cons f t ih =>
      intro a
      rw [List.foldl_cons]
      by_cases h : strHasPrefix f.name "covcounters." = true
      · rw [show (List.filter (fun f2 => strHasPrefix f2.name "covcounters.") (f :: t)) =
          f :: List.filter (fun f2 => strHasPrefix f2.name "covcounters.") t from by
            simp [List.filter_cons, h]]
        rw [List.map_cons, List.foldl_cons]
        simp only [h, if_true, ite_true]
        rw [ih]
        rfl
      · rw [show (List.filter (fun f2 => strHasPrefix f2.name "covcounters.") (f :: t)) =
          List.filter (fun f2 => strHasPrefix f2.name "covcounters.") t from by
            simp [List.filter_cons, h]]
        simp only [h, Bool.false_eq_true, if_false, ite_false]
        exact ih _
  have hgen : ∀ (ds : List CovDir) (a : Nat),
      ds.foldl
        (fun newest d =>
          d.files.foldl
            (fun newest2 f =>
              if strHasPrefix f.name "covcounters." then
                if newest2 < f.mtime then f.mtime else newest2
              else newest2) newest) a =
      (counterTimes ds).foldl natMaxStep a := by
    intro ds
    induction ds with
    | nil => intro a; rfl
    | cons d t ih =>
      intro a
      rw [List.foldl_cons, hinner, ih]
      rw [show counterTimes (d :: t) =
        ((d.files.filter fun f => strHasPrefix f.name "covcounters.").map (·.mtime)) ++
          counterTimes t from by simp [counterTimes]]
      rw [List.foldl_append]
  exact hgen dirs 0

theorem newestCounterTime_spec (dirs : List CovDir) :
    (∀ t ∈ counterTimes dirs, t ≤ newestCounterTime dirs) ∧
    (newestCounterTime dirs = 0 ∨ newestCounterTime dirs ∈ counterTimes dirs) := by
  rw [newestCounterTime_eq_fold]
  obtain ⟨h1, _, h3⟩ := natMaxStep_fold (counterTimes dirs) 0
  exact ⟨h1, h3⟩

theorem buildGroups_sorted (l : List BuildGroup) :
    List.Sorted (fun a b : BuildGroup => a.newestTimestamp ≤ b.newestTimestamp)
      (List.insertionSort (fun a b : BuildGroup => a.newestTimestamp ≤ b.newestTimestamp) l) :=
  @List.sorted_insertionSort BuildGroup _ _
    ⟨fun a b => le_total a.newestTimestamp b.newestTimestamp⟩
    ⟨fun _ _ _ hab hbc => le_trans hab hbc⟩ l

theorem sorted_le_last (l : List BuildGroup)
    (hs : List.Sorted (fun a b : BuildGroup => a.newestTimestamp ≤ b.newestTimestamp) l) :
    ∀ g ∈ l, ∀ glast, l.getLast? = some glast →
      g.newestTimestamp ≤ glast.newestTimestamp := by
  induction l with
  | nil => intro g hg; simp at hg
  | cons h0 t ih =>
    intro g hg glast hlast
    cases t with
    | nil =>
      simp at hg hlast
      rw [hg, ← hlast]
    | cons x t2 =>
      rw [List.getLast?_cons_cons] at hlast
      rcases List.mem_cons.mp hg with h1 | h1
      · subst h1
        have hglast : glast ∈ x :: t2 := List.mem_of_mem_getLast? hlast
        exact List.rel_of_sorted_cons hs glast hglast
      · exact ih (List.sorted_cons.mp hs).2 g h1 glast hlast

theorem PDRG_ok (dirs : List CovDir) (gs : List BuildGroup)
    (h : ParseDirRecursiveGrouped dirs = .ok gs) :
    gs = List.insertionSort (fun a b : BuildGroup => a.newestTimestamp ≤ b.newestTimestamp)
      ((groupByMetaHash dirs).map fun kv =>
        { dirs := kv.2, newestTimestamp := newestCounterTime kv.2 }) := by
  rw [ParseDirRecursiveGrouped] at h
  by_cases he : dirs.isEmpty = true
  · rw [if_pos he] at h
    exact absurd h (by simp)
  · rw [if_neg he] at h
    exact (Except.ok.inj h).symm

/-- C8 counterexample: a covmeta hash suffix containing a comma collides
with the comma-joined fingerprint of two other hashes, so two
directories with different sorted hash-suffix sets land in one build
group, refuting the claim's "if and only if their sorted sets of
covmeta-hash suffixes are identical". -/
theorem groupByMetaHash_comma_collision :
    ParseDirRecursiveGrouped [c8d1, c8d2] = .ok [⟨[c8d1, c8d2], 0⟩] ∧
    sortStrs (hashSuffixes c8d1) = ["a,b"] ∧
    sortStrs (hashSuffixes c8d2) = ["a", "b"] ∧
    sortStrs (hashSuffixes c8d1) ≠ sortStrs (hashSuffixes c8d2) := by
  refine ⟨rfl, by decide, by decide, by decide⟩

/-- C8 (amended): two directories land in the same returned build group
exactly when their fingerprint strings (the comma-join of their sorted
covmeta hash suffixes) are equal -- identical sorted suffix sets always
share a group, and distinct sets are separated unless a suffix contains
a comma; each group's newestTimestamp is the running maximum (zero if
none) of the covcounters modification times over its member
directories; and the returned list is sorted ascending by
newestTimestamp, so every group's timestamp is at most the last
group's. -/
theorem buildGroups_amended (dirs : List CovDir) (gs : List BuildGroup)
    (h : ParseDirRecursiveGrouped dirs = .ok gs) :
    (∀ d1 ∈ dirs, ∀ d2 ∈ dirs,
      ((∃ g ∈ gs, d1 ∈ g.dirs ∧ d2 ∈ g.dirs) ↔ fingerprint d1 = fingerprint d2)) ∧
    (∀ g ∈ gs, g.newestTimestamp = newestCounterTime g.dirs ∧
      (∀ t ∈ counterTimes g.dirs, t ≤ g.newestTimestamp) ∧
      (g.newestTimestamp = 0 ∨ g.newestTimestamp ∈ counterTimes g.dirs)) ∧
    List.Sorted (fun a b : BuildGroup => a.newestTimestamp ≤ b.newestTimestamp) gs ∧
    (∀ g ∈ gs, ∀ glast, gs.getLast? = some glast →
      g.newestTimestamp ≤ glast.newestTimestamp) := by
  have hgs := PDRG_ok dirs gs h
  have hmem : ∀ g : BuildGroup, g ∈ gs ↔
      g ∈ (groupByMetaHash dirs).map fun kv =>
        ({ dirs := kv.2, newestTimestamp := newestCounterTime kv.2 } : BuildGroup) := by
    intro g
    rw [hgs]
    exact (List.perm_insertionSort _ _).mem_iff
  have hsorted : List.Sorted
      (fun a b : BuildGroup => a.newestTimestamp ≤ b.newestTimestamp) gs := by
    rw [hgs]
    exact buildGroups_sorted _
  refine ⟨?_, ?_, hsorted, sorted_le_last gs hsorted⟩
  · intro d1 hd1 d2 hd2
    constructor
    · rintro ⟨g, hg, hgd1, hgd2⟩
      rcases List.mem_map.mp ((hmem g).mp hg) with ⟨kv, hkv, hmk⟩
      rw [← hmk] at hgd1 hgd2
      have h1 := groupByMetaHash_fp_inv dirs kv hkv d1 hgd1
      have h2 := groupByMetaHash_fp_inv dirs kv hkv d2 hgd2
      rw [h1, h2]
    · intro hf
      have hd1f : d1 ∈ dirs.filter fun d => fingerprint d = fingerprint d1 :=
        List.mem_filter.mpr ⟨hd1, by simp⟩
      have hne : ¬ (dirs.filter fun d => fingerprint d = fingerprint d1).isEmpty = true := by
        intro hcon
        rw [List.isEmpty_iff.mp hcon] at hd1f
        simp at hd1f
      have hlk := groupByMetaHash_lookup dirs (fingerprint d1)
      rw [if_neg hne] at hlk
      have hpair := assocFind_mem _ _ _ hlk
      refine ⟨{ dirs := dirs.filter fun d => fingerprint d = fingerprint d1
                newestTimestamp :=
                  newestCounterTime (dirs.filter fun d => fingerprint d = fingerprint d1) },
              (hmem _).mpr (List.mem_map.mpr
                ⟨(fingerprint d1, dirs.filter fun d => fingerprint d = fingerprint d1),
                 hpair, rfl⟩),
              hd1f,
              List.mem_filter.mpr ⟨hd2, by simp [hf]⟩⟩
  · intro g hg
    rcases List.mem_map.mp ((hmem g).mp hg) with ⟨kv, hkv, hmk⟩
    rw [← hmk]
    exact ⟨rfl, (newestCounterTime_spec kv.2).1, (newestCounterTime_spec kv.2).2⟩

/-- Witness for C8's amended theorem at two single-hash directories. -/
theorem buildGroups_amended_witness :
    (∀ d1 ∈ [c8e1, c8e2], ∀ d2 ∈ [c8e1, c8e2],
      ((∃ g ∈ ([⟨[c8e1], 5⟩, ⟨[c8e2], 9⟩] : List BuildGroup),
          d1 ∈ g.dirs ∧ d2 ∈ g.dirs) ↔ fingerprint d1 = fingerprint d2)) ∧
    (∀ g ∈ ([⟨[c8e1], 5⟩, ⟨[c8e2], 9⟩] : List BuildGroup),
      g.newestTimestamp = newestCounterTime g.dirs ∧
      (∀ t ∈ counterTimes g.dirs, t ≤ g.newestTimestamp) ∧
      (g.newestTimestamp = 0 ∨ g.newestTimestamp ∈ counterTimes g.dirs)) ∧
    List.Sorted (fun a b : BuildGroup => a.newestTimestamp ≤ b.newestTimestamp)
      ([⟨[c8e1], 5⟩, ⟨[c8e2], 9⟩] : List BuildGroup) ∧
    (∀ g ∈ ([⟨[c8e1], 5⟩, ⟨[c8e2], 9⟩] : List BuildGroup),
      ∀ glast, ([⟨[c8e1], 5⟩, ⟨[c8e2], 9⟩] : List BuildGroup).getLast? = some glast →
      g.newestTimestamp ≤ glast.newestTimestamp) :=
  buildGroups_amended [c8e1, c8e2] [⟨[c8e1], 5⟩, ⟨[c8e2], 9⟩] rfl

end Goreach
